import Mathlib

/-!
Shallow embedding of the PSD analysis engine of the Tool4S repository.

The embedding covers:
* the fixed dB histogram grid `PSDCalculator.PSD_DB_RANGE` and the per-bin
  histogram built by `PSDCalculator._smooth_psd` (src/core/psd.py);
* the geometric period binner `PSDCalculator._setup_period_binning`;
* the post-Welch stages of `PSDCalculator.calculate_psd`: frequency clipping,
  optional instrument-response removal (`_remove_response`) and the
  velocity-to-acceleration conversion;
* the octave smoothing step `_smooth_psd` (period conversion, per-bin mean,
  per-bin histogram, double reversal back to ascending frequencies);
* the configuration setters with their validation (`filter_type.setter`,
  `window_type.setter`, and the unvalidated `instrument_type` assignment);
* the cross-file aggregation `PSDLoadingWorker._load_pdf_data`
  (src/gui/dialogs/psd_pdf_dialog.py): element-wise summation of
  `psd_distribution` matrices and row normalization with a zero-row guard.

Floating point numbers are modelled as real numbers (rationals where the
claims are about exact integer counting), numpy arrays as lists or as
`Matrix (Fin m) (Fin n)`, and Python exceptions as `Except` / error options.
The `while` loop of the period binner is given explicit fuel; every theorem
about it holds for every fuel value.
-/

namespace Tool4S

/-! ### The fixed dB histogram grid (src/core/psd.py line 19) -/

/-- Embeds `PSDCalculator.PSD_DB_RANGE = np.arange(-200, -49)`: the integer list
-200, -199, ..., -50. -/
def PSD_DB_RANGE : List ℤ := (List.range 151).map (fun (i : ℕ) => (i : ℤ) - 200)

/-- Embeds the persisted artifact field `psd_db_range = PSD_DB_RANGE[:-1]`
(src/gui/dialogs/psd_calculation_dialog.py line 158). -/
def persistedDbRange : List ℤ := PSD_DB_RANGE.dropLast

/-- Membership test for bin `i` of `np.histogram(values, bins=PSD_DB_RANGE)`:
with the 151 edges -200, ..., -50 there are 150 bins; bin `i` is the
half-open interval [i - 200, i - 199), except that numpy closes the right
edge of the final bin, so bin 149 is the closed interval [-51, -50]. -/
def dbBinPred {α : Type} [LinearOrderedField α] (i : ℕ) (v : α) : Bool :=
  decide ((i : α) - 200 ≤ v) &&
    (if i = 149 then decide (v ≤ -50) else decide (v < (i : α) - 199))

/-- Embeds `np.histogram(bin_values, bins=PSD_DB_RANGE)` from
`PSDCalculator._smooth_psd` (src/core/psd.py line 184): the counts of the
values falling in each of the 150 grid bins. -/
def dbHist {α : Type} [LinearOrderedField α] (vals : List α) : List ℕ :=
  (List.range 150).map (fun i => vals.countP (dbBinPred i))

/-- Index of the unique histogram bin containing an in-range value
(used to reason about `dbHist`). -/
def binIndex {α : Type} [LinearOrderedField α] [FloorRing α] (v : α) : ℕ :=
  if -51 ≤ v then 149 else (⌊v⌋ + 200).toNat

/-! ### Cross-file aggregation (src/gui/dialogs/psd_pdf_dialog.py lines 111-144) -/

/-- Row total of a distribution matrix:
`total_counts = total_distribution.sum(axis=1)` for one frequency row. -/
def rowTotal {m n : ℕ} (M : Matrix (Fin m) (Fin n) ℚ) (i : Fin m) : ℚ := ∑ j, M i j

/-- Embeds lines 140-143: each row of the summed distribution is divided by its
row total, the divisor being replaced by 1 when the total is 0
(`total_counts[total_counts == 0] = 1`). -/
def normalizeDist {m n : ℕ} (M : Matrix (Fin m) (Fin n) ℚ) : Matrix (Fin m) (Fin n) ℚ :=
  fun i j => M i j / (if rowTotal M i = 0 then 1 else rowTotal M i)

/-- Embeds the accumulation loop of lines 124-131 on same-shape matrices:
`total_distribution` starts at zero and each file adds its
`psd_distribution` matrix element-wise. -/
def sumDistributions {m n : ℕ} (l : List (Matrix (Fin m) (Fin n) ℚ)) :
    Matrix (Fin m) (Fin n) ℚ :=
  l.foldl (· + ·) 0

/-- Shape compatibility of two rectangular count matrices given as lists of
rows: `total += d` succeeds exactly on matching shapes and raises otherwise. -/
def sameShape (a b : List (List ℕ)) : Bool :=
  a.length == b.length && (a.zip b).all (fun p => p.1.length == p.2.length)

/-- Element-wise sum of two same-shape count matrices given as lists of rows. -/
def addMat (a b : List (List ℕ)) : List (List ℕ) :=
  List.zipWith (List.zipWith (· + ·)) a b

/-- Embeds `np.zeros_like(psd_distribution)`. -/
def zerosLike (a : List (List ℕ)) : List (List ℕ) :=
  a.map (fun r => r.map (fun _ => 0))

/-- Embeds `PSDLoadingWorker._load_pdf_data` (lines 111-137) at the level of
count matrices.  An input artifact is `some d` when its `psd_distribution`
matrix `d` is present and `none` when the field is missing (a malformed
artifact).  The first file is loaded outside the try block: if it is
malformed the whole call raises (`Except.error`), which the caller logs as a
group-level error.  Inside the loop every file (the first one again
included) is added under a try block: a malformed file or a shape mismatch
is skipped with a warning and the loop continues. -/
def loadPdfData (files : List (Option (List (List ℕ)))) :
    Except String (Option (List (List ℕ))) :=
  match files with
  | [] => Except.ok none
  | f0 :: _ =>
    match f0 with
    | none => Except.error "psd_distribution not found"
    | some d0 =>
      Except.ok (some (files.foldl (fun tot f =>
        match f with
        | none => tot
        | some d => if sameShape tot d then addMat tot d else tot) (zerosLike d0)))

/-! ### Configuration setters (src/core/psd.py lines 21-40 and 265-337) -/

/-- The configuration state relevant to the enum-valued settings of
`PSDCalculator`. -/
structure PsdConfig where
  filter_type : String
  window_type : String
  instrument_type : ℤ

/-- The window names accepted by the `window_type` setter (line 334). -/
def validWindowTypes : List String :=
  ["hann", "hamming", "blackman", "bartlett", "flattop", "boxcar"]

/-- Embeds the `filter_type` setter (lines 281-286): an invalid value raises
and the stored value is left unchanged. -/
def setFilterType (s : PsdConfig) (v : String) : PsdConfig × Option String :=
  if v = "High Pass" ∨ v = "Band Pass" then ({ s with filter_type := v }, none)
  else (s, some "Filter type must be High Pass or Band Pass")

/-- Embeds the `window_type` setter (lines 331-337): an invalid value raises
and the stored value is left unchanged. -/
def setWindowType (s : PsdConfig) (v : String) : PsdConfig × Option String :=
  if v ∈ validWindowTypes then ({ s with window_type := v }, none)
  else (s, some "Window type must be one of the valid windows")

/-- Embeds the assignment `self.instrument_type = instrument_type` (line 40):
a plain attribute write with no validation, so it never raises. -/
def setInstrumentType (s : PsdConfig) (v : ℤ) : PsdConfig × Option String :=
  ({ s with instrument_type := v }, none)

/-- Embeds the instrument-type dispatch of `calculate_psd` (lines 136-143):
the only place where an invalid instrument type raises. -/
def instrumentTypeCheck (t : ℤ) : Option String :=
  if t = 0 ∨ t = 1 then none else some "Invalid instrument type"

/-! ### Period binning (PSDCalculator._setup_period_binning, lines 226-263) -/

/-- One bin of the period binner, holding the five aligned values returned as
the rows of the stacked array: `edges_left`, `plot_edges_left`, `centers`,
`plot_edges_right`, `edges_right`. -/
structure PeriodBin where
  left : ℝ
  plotLeft : ℝ
  center : ℝ
  plotRight : ℝ
  right : ℝ

/-- Builds the bin with left edge `left`: `right = left * smoothing_factor`,
`center = sqrt(left * right)`, and the plotting edges
`center / sqrt(step_factor)` and `center * sqrt(step_factor)`. -/
noncomputable def binStep (stepf smoothf left : ℝ) : PeriodBin :=
  let right := left * smoothf
  let center := Real.sqrt (left * right)
  ⟨left, center / Real.sqrt stepf, center, center * Real.sqrt stepf, right⟩

/-- Embeds the `while per_center < period_limits[1]` loop (lines 245-252) with
explicit fuel: each pass multiplies the left edge by the step factor and
appends the resulting bin. -/
noncomputable def binLoop (stepf smoothf pmax : ℝ) : ℕ → ℝ → ℝ → List PeriodBin
  | 0, _, _ => []
  | Nat.succ fuel, left, center =>
    if center < pmax then
      let b := binStep stepf smoothf (left * stepf)
      b :: binLoop stepf smoothf pmax fuel b.left b.center
    else []

/-- Embeds `PSDCalculator._setup_period_binning`:
`step_factor = 2 ** period_step_octaves`,
`smoothing_factor = 2 ** period_smoothing_width_octaves`, first left edge
`period_limits[0] / sqrt(smoothing_factor)`, then the loop. -/
noncomputable def setupPeriodBinning (fuel : ℕ) (w s pmin pmax : ℝ) : List PeriodBin :=
  let stepf := (2 : ℝ) ^ s
  let smoothf := (2 : ℝ) ^ w
  let b0 := binStep stepf smoothf (pmin / Real.sqrt smoothf)
  b0 :: binLoop stepf smoothf pmax fuel b0.left b0.center

/-! ### Welch frequencies and the post-Welch stages of calculate_psd -/

/-- The frequency grid returned by `scipy.signal.welch` with a one-sided
spectrum: `k * fs / nperseg` for `k = 0, ..., nperseg // 2`. -/
def welchFreqs {α : Type} [LinearOrderedField α] (fs : α) (nperseg : ℕ) : List α :=
  (List.range (nperseg / 2 + 1)).map (fun (k : ℕ) => (k : α) * fs / (nperseg : α))

/-- Embeds the frequency mask of lines 125-127 on a bare frequency list:
retain `fmin <= f <= fmax`. -/
def clipFreqs {α : Type} [LinearOrderedField α] (fmin fmax : α) (l : List α) : List α :=
  l.filter (fun f => decide (fmin ≤ f) && decide (f ≤ fmax))

/-- Embeds the frequency mask of lines 125-127 on (frequency, power) pairs. -/
def clipPairs {α : Type} [LinearOrderedField α] (fmin fmax : α) (l : List (α × α)) :
    List (α × α) :=
  l.filter (fun fp => decide (fmin ≤ fp.1) && decide (fp.1 ≤ fmax))

/-- Horner evaluation of a real coefficient list (highest degree first) at a
complex point, as `scipy.signal.lti` interprets its numerator and
denominator arrays. -/
noncomputable def polyEval (coeffs : List ℝ) (s : ℂ) : ℂ :=
  coeffs.foldl (fun acc c => acc * s + (c : ℂ)) 0

/-- Embeds the transfer function built in `_remove_response` (lines 218-222):
`signal.lti([1, 0, 0], [1, 2 * damping * omega_n, omega_n ** 2])` with
`omega_n = 2 * pi / natural_period`, evaluated at a complex point `s`. -/
noncomputable def transferEval (z T : ℝ) (s : ℂ) : ℂ :=
  polyEval [1, 0, 0] s / polyEval [1, 2 * z * (2 * Real.pi / T), (2 * Real.pi / T) ^ 2] s

/-- The transfer function as the spec states it, for refinement comparison:
`H(s) = s^2 / (s^2 + 2 z wn s + wn^2)`. -/
noncomputable def HspecTF (z wn : ℝ) (s : ℂ) : ℂ :=
  s ^ 2 / (s ^ 2 + ((2 * z * wn : ℝ) : ℂ) * s + ((wn ^ 2 : ℝ) : ℂ))

/-- Embeds `PSDCalculator._remove_response` (lines 216-224): evaluate the
frequency response at `j * 2 * pi * f` for every retained frequency and
divide the power by the squared magnitude. -/
noncomputable def removeResponse (z T : ℝ) (l : List (ℝ × ℝ)) : List (ℝ × ℝ) :=
  l.map (fun fp =>
    (fp.1, fp.2 / Complex.abs (transferEval z T (Complex.I * (2 * Real.pi * fp.1))) ^ 2))

/-- Embeds the instrument-type branch of `calculate_psd` (lines 135-143):
type 0 (velocity) multiplies the power by `(2 pi f) ^ 2`, type 1
(acceleration) leaves it unchanged, anything else raises. -/
noncomputable def instrumentConvert (t : ℤ) (l : List (ℝ × ℝ)) :
    Except String (List (ℝ × ℝ)) :=
  if t = 0 then Except.ok (l.map (fun fp => (fp.1, (2 * Real.pi * fp.1) ^ 2 * fp.2)))
  else if t = 1 then Except.ok l
  else Except.error "Invalid instrument type"

/-- The stages of `calculate_psd` between the Welch estimate and the dB
conversion (lines 124-143): frequency clipping, optional response removal,
then the instrument-type conversion. -/
noncomputable def calculatePsdPost (respEnabled : Bool) (z T : ℝ) (t : ℤ)
    (fmin fmax : ℝ) (l : List (ℝ × ℝ)) : Except String (List (ℝ × ℝ)) :=
  let clipped := clipPairs fmin fmax l
  let afterResp := if respEnabled then removeResponse z T clipped else clipped
  instrumentConvert t afterResp

/-! ### Octave smoothing (PSDCalculator._smooth_psd, lines 154-199) -/

/-- The PSD values whose period falls inside a bin:
`psd_by_period[(per_left <= periods) & (periods <= per_right)]`. -/
noncomputable def binValues (periods vals : List ℝ) (left right : ℝ) : List ℝ :=
  ((periods.zip vals).filter
    (fun pv => decide (left ≤ pv.1) && decide (pv.1 ≤ right))).map Prod.snd

/-- Mean of the PSD values of a bin; `none` models the `np.nan` appended when
the bin is empty. -/
noncomputable def binMean (l : List ℝ) : Option ℝ :=
  if l = [] then none else some (l.sum / (l.length : ℝ))

/-- The result of `_smooth_psd`: the smoothed frequencies, the smoothed PSD
values (none at empty bins) and the per-bin dB histogram rows, all in
ascending-frequency order. -/
structure SmoothResult where
  freqs : List ℝ
  psd : List (Option ℝ)
  dist : List (List ℕ)

/-- Embeds `PSDCalculator._smooth_psd`: convert to periods (reversing so the
periods ascend), bin with one-octave smoothing and one-eighth-octave steps
over the full period range, take the per-bin mean and histogram, and
reverse every per-bin array back into ascending-frequency order
(`smoothed_frequencies = 1.0 / smoothed_periods[::-1]`). -/
noncomputable def smoothPsd (fuel : ℕ) (freqs psdVals : List ℝ) : SmoothResult :=
  let periods := (freqs.map (fun f => 1 / f)).reverse
  let psdByPeriod := psdVals.reverse
  let bins := setupPeriodBinning fuel 1 (1 / 8) periods.headI (periods.getLastI)
  { freqs := ((bins.map PeriodBin.center).reverse).map (fun c => 1 / c)
    psd := (bins.map (fun b => binMean (binValues periods psdByPeriod b.left b.right))).reverse
    dist := (bins.map (fun b => dbHist (binValues periods psdByPeriod b.left b.right))).reverse }

/-! ### Helper lemmas -/

/-- Folding addition from the left over a list equals the starting value plus
the list sum. -/
theorem foldl_add_eq_add_sum {M : Type} [AddCommMonoid M] (l : List M) (a : M) :
    l.foldl (· + ·) a = a + l.sum := by
  induction l generalizing a with
  | nil => simp
  | cons b t ih => simp [ih, add_assoc]

/-- The accumulation loop of `_load_pdf_data` computes the list sum. -/
theorem sumDistributions_eq_sum {m n : ℕ} (l : List (Matrix (Fin m) (Fin n) ℚ)) :
    sumDistributions l = l.sum := by
  simp [sumDistributions, foldl_add_eq_add_sum]

/-! ### Claim theorems -/

set_option maxRecDepth 20000 in
/-- C1 counterexample: the fixed dB grid does not have 149 edges (it has 151),
and the persisted `psd_db_range` is not the full edge set (it drops the last
edge). -/
theorem C1_counterexample : PSD_DB_RANGE.length ≠ 149 ∧ persistedDbRange ≠ PSD_DB_RANGE := by
  have hlen : PSD_DB_RANGE.length = 151 := by
    unfold PSD_DB_RANGE
    rw [List.length_map, List.length_range]
  have hplen : persistedDbRange.length = 150 := by
    unfold persistedDbRange
    rw [List.length_dropLast, hlen]
  constructor
  · omega
  · intro h
    have : persistedDbRange.length = PSD_DB_RANGE.length := by rw [h]
    omega

set_option maxRecDepth 20000 in
/-- C1 (amended): the fixed dB grid has exactly 151 bin edges spanning -200 dB
to -50 dB with 1 dB spacing; the per-frequency histogram rows count raw dB
samples over the 150 fixed 1-dB bins these edges bound; the persisted
`psd_db_range` is the edge set with the final edge -50 dropped, i.e. the 150
left bin edges -200, ..., -51. -/
theorem C1_grid_amended :
    PSD_DB_RANGE.length = 151
    ∧ PSD_DB_RANGE.head? = some (-200)
    ∧ PSD_DB_RANGE.getLast? = some (-50)
    ∧ List.zipWith (fun a b => b - a) PSD_DB_RANGE PSD_DB_RANGE.tail = List.replicate 150 1
    ∧ (∀ vals : List ℝ, (dbHist vals).length = 150)
    ∧ persistedDbRange = (List.range 150).map (fun (i : ℕ) => (i : ℤ) - 200)
    ∧ persistedDbRange.length = 150
    ∧ persistedDbRange.getLast? = some (-51) := by
  refine ⟨by decide, by decide, by decide, by decide, ?_, by decide, by decide, by decide⟩
  intro vals
  simp [dbHist]

/-- C3: after aggregation each probability row is the summed count row divided
by its row total with the divisor replaced by 1 when the total is 0, and
consequently each row of the probability distribution sums to 1 when the
total count is nonzero and to 0 when it is zero. -/
theorem C3_row_normalization {m n : ℕ} (l : List (Matrix (Fin m) (Fin n) ℚ)) (i : Fin m) :
    (∀ j, normalizeDist (sumDistributions l) i j =
      sumDistributions l i j /
        (if rowTotal (sumDistributions l) i = 0 then 1 else rowTotal (sumDistributions l) i))
    ∧ (∑ j, normalizeDist (sumDistributions l) i j) =
      (if rowTotal (sumDistributions l) i = 0 then 0 else 1) := by
  refine ⟨fun j => rfl, ?_⟩
  by_cases h : rowTotal (sumDistributions l) i = 0
  · simp only [normalizeDist, h, if_true, div_one]
    exact h
  · simp only [normalizeDist, h, if_false]
    rw [← Finset.sum_div]
    exact div_self h

/-- C4: aggregation is associative over the pre-normalization count sums: for
any partition of a list of same-shape distribution matrices into sublists,
summing each sublist and then summing the partial sums yields the same total
matrix, and hence the same normalized probability distribution, as summing
the flattened list directly. -/
theorem C4_aggregation_assoc {m n : ℕ} (parts : List (List (Matrix (Fin m) (Fin n) ℚ))) :
    sumDistributions (parts.map sumDistributions) = sumDistributions parts.flatten
    ∧ normalizeDist (sumDistributions (parts.map sumDistributions)) =
      normalizeDist (sumDistributions parts.flatten) := by
  have key : sumDistributions (parts.map sumDistributions) = sumDistributions parts.flatten := by
    rw [sumDistributions_eq_sum, sumDistributions_eq_sum, List.sum_flatten]
    congr 1
    exact List.map_congr_left (fun x _ => sumDistributions_eq_sum x)
  exact ⟨key, by rw [key]⟩

/-- C8 counterexample: assigning the invalid instrument type 2 is accepted with
no error at configuration-set time (the stored value even changes to 2);
the rejection happens only inside `calculate_psd`. -/
theorem C8_counterexample :
    (setInstrumentType ⟨"High Pass", "hann", 0⟩ 2).2 = none
    ∧ (setInstrumentType ⟨"High Pass", "hann", 0⟩ 2).1.instrument_type = 2
    ∧ instrumentTypeCheck 2 = some "Invalid instrument type" :=
  ⟨rfl, rfl, rfl⟩

/-- C8 (amended): an invalid filter kind or window name is rejected on
assignment with an error, leaving the previous configuration value
unchanged; an invalid instrument type, however, is accepted on assignment
(no validation) and is rejected only at call time inside `calculate_psd`. -/
theorem C8_validation_amended (s : PsdConfig) (v : String) (t : ℤ)
    (hv1 : v ≠ "High Pass") (hv2 : v ≠ "Band Pass") (hw : v ∉ validWindowTypes)
    (ht0 : t ≠ 0) (ht1 : t ≠ 1) :
    setFilterType s v = (s, some "Filter type must be High Pass or Band Pass")
    ∧ setWindowType s v = (s, some "Window type must be one of the valid windows")
    ∧ (setInstrumentType s t).2 = none
    ∧ (setInstrumentType s t).1.instrument_type = t
    ∧ instrumentTypeCheck t = some "Invalid instrument type" := by
  refine ⟨?_, ?_, rfl, rfl, ?_⟩
  · simp [setFilterType, hv1, hv2]
  · simp [setWindowType, hw]
  · simp [instrumentTypeCheck, ht0, ht1]

/-- C8 witness: the amended statement at the concrete invalid inputs
"Low Pass" and instrument type 2. -/
theorem C8_validation_witness :
    setFilterType ⟨"High Pass", "hann", 0⟩ "Low Pass" =
      (⟨"High Pass", "hann", 0⟩, some "Filter type must be High Pass or Band Pass")
    ∧ setWindowType ⟨"High Pass", "hann", 0⟩ "Low Pass" =
      (⟨"High Pass", "hann", 0⟩, some "Window type must be one of the valid windows")
    ∧ (setInstrumentType ⟨"High Pass", "hann", 0⟩ 2).2 = none
    ∧ instrumentTypeCheck 2 = some "Invalid instrument type" :=
  have h := C8_validation_amended ⟨"High Pass", "hann", 0⟩ "Low Pass" 2
    (by decide) (by decide) (by decide) (by decide) (by decide)
  ⟨h.1, h.2.1, h.2.2.1, h.2.2.2.2⟩

/-- C9 counterexample: a malformed artifact in the first position is not
skipped; `_load_pdf_data` raises and the whole group is aborted. -/
theorem C9_counterexample :
    loadPdfData [none, some [[1]]] = Except.error "psd_distribution not found" := rfl

/-- C9 (amended): a malformed artifact in the first position makes
`_load_pdf_data` raise, aborting the group; a malformed artifact at any
later position is skipped (with a recoverable warning) and aggregation
proceeds with the remaining inputs exactly as if it were absent. -/
theorem C9_skip_amended (d0 : List (List ℕ))
    (rest l1 l2 : List (Option (List (List ℕ)))) :
    loadPdfData (none :: rest) = Except.error "psd_distribution not found"
    ∧ loadPdfData (some d0 :: (l1 ++ none :: l2)) = loadPdfData (some d0 :: (l1 ++ l2)) := by
  refine ⟨rfl, ?_⟩
  simp only [loadPdfData, List.foldl_cons, List.foldl_append]

/-! ### Histogram range lemmas (for C10) -/

/-- Propositional form of the bin membership test. -/
theorem dbBinPred_iff (i : ℕ) (v : ℝ) :
    dbBinPred i v = true ↔
      ((i : ℝ) - 200 ≤ v ∧ (if i = 149 then v ≤ -50 else v < (i : ℝ) - 199)) := by
  unfold dbBinPred
  by_cases h : i = 149 <;> simp [h]

/-- A value below the grid falls in no bin. -/
theorem dbBinPred_false_low {v : ℝ} (h : v < -200) (i : ℕ) : dbBinPred i v = false := by
  rw [Bool.eq_false_iff, Ne, dbBinPred_iff]
  rintro ⟨ha, _⟩
  have : (0 : ℝ) ≤ (i : ℝ) := Nat.cast_nonneg i
  linarith

/-- A value above the grid falls in no bin. -/
theorem dbBinPred_false_high {v : ℝ} (h : -50 < v) {i : ℕ} (hi : i < 150) :
    dbBinPred i v = false := by
  rw [Bool.eq_false_iff, Ne, dbBinPred_iff]
  by_cases h9 : i = 149
  · rw [if_pos h9]
    rintro ⟨_, hb⟩
    linarith
  · rw [if_neg h9]
    rintro ⟨_, hb⟩
    have hile : i ≤ 148 := by omega
    have : (i : ℝ) ≤ 148 := by exact_mod_cast hile
    linarith

/-- An in-range value falls exactly in the bin named by `binIndex`. -/
theorem dbBinPred_true_iff {v : ℝ} (h1 : -200 ≤ v) (h2 : v ≤ -50) {i : ℕ} (hi : i < 150) :
    (dbBinPred i v = true) ↔ i = binIndex v := by
  have hfl : ((⌊v⌋ : ℤ) : ℝ) ≤ v := Int.floor_le v
  have hfl1 : v < ((⌊v⌋ : ℤ) : ℝ) + 1 := Int.lt_floor_add_one v
  rw [dbBinPred_iff]
  by_cases hb : -51 ≤ v
  · have hbi : binIndex v = 149 := by simp [binIndex, hb]
    rw [hbi]
    by_cases h9 : i = 149
    · subst h9
      rw [if_pos rfl]
      constructor
      · intro _; rfl
      · intro _
        constructor
        · push_cast
          linarith
        · exact h2
    · rw [if_neg h9]
      constructor
      · rintro ⟨_, hlt⟩
        exfalso
        have hile : i ≤ 148 := by omega
        have : (i : ℝ) ≤ 148 := by exact_mod_cast hile
        linarith
      · intro hcontr
        exact absurd hcontr h9
  · push_neg at hb
    have h200 : (-200 : ℤ) ≤ ⌊v⌋ := Int.le_floor.mpr (by exact_mod_cast h1)
    have h52 : ⌊v⌋ ≤ -52 := by
      have : ((⌊v⌋ : ℤ) : ℝ) < -51 := lt_of_le_of_lt hfl hb
      have : ⌊v⌋ < -51 := by exact_mod_cast this
      omega
    have h0 : (0 : ℤ) ≤ ⌊v⌋ + 200 := by omega
    have hbi : binIndex v = (⌊v⌋ + 200).toNat := by
      rw [binIndex, if_neg (not_le.mpr hb)]
    have hkz : (((⌊v⌋ + 200).toNat : ℤ)) = ⌊v⌋ + 200 := Int.toNat_of_nonneg h0
    have hkr : (((⌊v⌋ + 200).toNat : ℕ) : ℝ) = ((⌊v⌋ : ℤ) : ℝ) + 200 := by
      have := congrArg (fun z : ℤ => (z : ℝ)) hkz
      push_cast at this
      linarith
    have hk148 : (⌊v⌋ + 200).toNat ≤ 148 := by omega
    rw [hbi]
    by_cases hik : i = (⌊v⌋ + 200).toNat
    · subst hik
      have h9 : (⌊v⌋ + 200).toNat ≠ 149 := by omega
      rw [if_neg h9]
      constructor
      · intro _; rfl
      · intro _
        constructor
        · rw [hkr]; linarith
        · rw [hkr]; linarith
    · constructor
      · intro hp
        exfalso
        rcases Nat.lt_or_ge i ((⌊v⌋ + 200).toNat) with hlt | hge
        · have h9 : i ≠ 149 := by omega
          rw [if_neg h9] at hp
          obtain ⟨_, hp2⟩ := hp
          have : (i : ℝ) ≤ (((⌊v⌋ + 200).toNat : ℕ) : ℝ) - 1 := by
            have : i + 1 ≤ (⌊v⌋ + 200).toNat := hlt
            have := (Nat.cast_le (α := ℝ)).mpr this
            push_cast at this
            linarith
          rw [hkr] at this
          linarith
        · have hgt : (⌊v⌋ + 200).toNat + 1 ≤ i := by omega
          obtain ⟨hp1, _⟩ := hp
          have : (((⌊v⌋ + 200).toNat : ℕ) : ℝ) + 1 ≤ (i : ℝ) := by
            have := (Nat.cast_le (α := ℝ)).mpr hgt
            push_cast at this
            linarith
          rw [hkr] at this
          linarith
      · intro hcontr
        exact absurd hcontr hik

/-- Each value is counted by exactly one bin when it lies in the grid range
and by none otherwise. -/
theorem countP_dbBins (v : ℝ) :
    (List.range 150).countP (fun i => dbBinPred i v) =
      if -200 ≤ v ∧ v ≤ -50 then 1 else 0 := by
  by_cases h1 : -200 ≤ v
  · by_cases h2 : v ≤ -50
    · rw [if_pos ⟨h1, h2⟩]
      have hbi : binIndex v < 150 := by
        by_cases hb : -51 ≤ v
        · simp [binIndex, hb]
        · push_neg at hb
          rw [binIndex, if_neg (not_le.mpr hb)]
          have h52 : ⌊v⌋ ≤ -52 := by
            have hfl : ((⌊v⌋ : ℤ) : ℝ) ≤ v := Int.floor_le v
            have : ((⌊v⌋ : ℤ) : ℝ) < -51 := lt_of_le_of_lt hfl hb
            have : ⌊v⌋ < -51 := by exact_mod_cast this
            omega
          omega
      have hcg : List.countP (fun i => dbBinPred i v) (List.range 150)
          = List.countP (fun i => i == binIndex v) (List.range 150) :=
        List.countP_congr (fun i him => by
          rw [List.mem_range] at him
          rw [dbBinPred_true_iff h1 h2 him, beq_iff_eq])
      rw [hcg, ← List.count_eq_countP]
      exact List.count_eq_one_of_mem (List.nodup_range 150) (List.mem_range.mpr hbi)
    · push_neg at h2
      rw [if_neg (by intro hc; exact absurd hc.2 (not_le.mpr h2))]
      rw [List.countP_eq_zero]
      intro i him
      rw [List.mem_range] at him
      simp [dbBinPred_false_high h2 him]
  · push_neg at h1
    rw [if_neg (by intro hc; exact absurd hc.1 (not_le.mpr h1))]
    rw [List.countP_eq_zero]
    intro i _
    simp [dbBinPred_false_low h1 i]

/-- Splitting a sum of pointwise added values over a mapped list. -/
theorem sum_map_add_nat {α : Type} (l : List α) (f g : α → ℕ) :
    (l.map (fun x => f x + g x)).sum = (l.map f).sum + (l.map g).sum := by
  induction l with
  | nil => rfl
  | cons a t ih =>
    simp only [List.map_cons, List.sum_cons, ih]
    omega

/-- A mapped indicator sums to the count of satisfying elements. -/
theorem sum_indicator_eq_countP {α : Type} (l : List α) (p : α → Bool) :
    (l.map (fun x => if p x then 1 else 0)).sum = l.countP p := by
  induction l with
  | nil => rfl
  | cons a t ih =>
    by_cases h : p a <;>
      simp [List.countP_cons, h, ih, Nat.add_comm]

set_option maxRecDepth 20000 in
/-- The total count of a histogram row equals the number of values lying in
the closed grid range [-200, -50]. -/
theorem dbHist_sum (vals : List ℝ) :
    (dbHist vals).sum = vals.countP (fun v => decide (-200 ≤ v) && decide (v ≤ -50)) := by
  induction vals with
  | nil => simp [dbHist]
  | cons v t ih =>
    have hmap : dbHist (v :: t) =
        (List.range 150).map
          (fun i => t.countP (dbBinPred i) + if dbBinPred i v then 1 else 0) := by
      unfold dbHist
      exact List.map_congr_left (fun i _ => List.countP_cons (dbBinPred i) v t)
    have hsplit := sum_map_add_nat (List.range 150)
      (fun i => t.countP (dbBinPred i)) (fun i => if dbBinPred i v then 1 else 0)
    rw [hmap, hsplit]
    unfold dbHist at ih
    rw [ih, sum_indicator_eq_countP, countP_dbBins, List.countP_cons]
    by_cases h1 : -200 ≤ v
    · by_cases h2 : v ≤ -50
      · simp [h1, h2]
      · simp [h1, h2]
    · simp [h1]

/-! ### More claim theorems -/

/-- C10: a histogram row counts exactly the values lying in the closed range
[-200, -50]; values below -200 or above -50 are silently dropped, so the
row total never exceeds, and can be strictly smaller than, the number of
points in the bin, with equality exactly when every value lies in the
grid. -/
theorem C10_histogram_range (vals : List ℝ) :
    (dbHist vals).sum = vals.countP (fun v => decide (-200 ≤ v) && decide (v ≤ -50))
    ∧ (dbHist vals).sum ≤ vals.length
    ∧ ((dbHist vals).sum = vals.length ↔ ∀ v ∈ vals, -200 ≤ v ∧ v ≤ -50)
    ∧ (dbHist [(-300 : ℝ)]).sum < ([(-300 : ℝ)] : List ℝ).length := by
  have hiff : ∀ l : List ℝ, (dbHist l).sum = l.length ↔ ∀ v ∈ l, -200 ≤ v ∧ v ≤ -50 := by
    intro l
    rw [dbHist_sum, List.countP_eq_length]
    constructor
    · intro h v hv
      have := h v hv
      simpa using this
    · intro h v hv
      simpa using h v hv
  refine ⟨dbHist_sum vals, ?_, hiff vals, ?_⟩
  · rw [dbHist_sum]
    exact List.countP_le_length _
  · have hne : ¬ ((dbHist [(-300 : ℝ)]).sum = ([(-300 : ℝ)] : List ℝ).length) := by
      rw [hiff]
      intro h
      have := (h (-300) (by simp)).1
      linarith
    have hle : (dbHist [(-300 : ℝ)]).sum ≤ ([(-300 : ℝ)] : List ℝ).length := by
      rw [dbHist_sum]
      exact List.countP_le_length _
    omega

/-! ### Period binning lemmas (for C2 and C7) -/

/-- The left edge stored by `binStep` is its argument. -/
theorem binStep_left (stepf smoothf left : ℝ) : (binStep stepf smoothf left).left = left := rfl

/-- The right edge stored by `binStep` is the left edge times the smoothing
factor. -/
theorem binStep_right (stepf smoothf left : ℝ) :
    (binStep stepf smoothf left).right = left * smoothf := rfl

/-- The geometric center of a bin with nonnegative left edge. -/
theorem binStep_center (stepf : ℝ) {smoothf left : ℝ} (hl : 0 ≤ left) :
    (binStep stepf smoothf left).center = left * Real.sqrt smoothf := by
  show Real.sqrt (left * (left * smoothf)) = left * Real.sqrt smoothf
  rw [show left * (left * smoothf) = left * left * smoothf by ring,
    Real.sqrt_mul (mul_self_nonneg left), Real.sqrt_mul_self hl]

/-- The loop produces nothing once the center has reached the upper period
limit. -/
theorem binLoop_eq_nil {stepf smoothf pmax : ℝ} (fuel : ℕ) {left center : ℝ}
    (h : ¬ center < pmax) : binLoop stepf smoothf pmax fuel left center = [] := by
  cases fuel with
  | zero => rfl
  | succ n => simp [binLoop, h]

/-- Every bin generated by the loop has a positive left edge, a right edge
equal to the left edge times the smoothing factor, and the geometric
center. -/
theorem binLoop_mem {stepf smoothf pmax : ℝ} (hstep : 0 < stepf) :
    ∀ (fuel : ℕ) (left center : ℝ), 0 < left →
      ∀ b ∈ binLoop stepf smoothf pmax fuel left center,
        0 < b.left ∧ b.right = b.left * smoothf ∧ b.center = b.left * Real.sqrt smoothf := by
  intro fuel
  induction fuel with
  | zero =>
    intro l c _ b hb
    simp [binLoop] at hb
  | succ n ih =>
    intro l c hl b hb
    simp only [binLoop] at hb
    by_cases hc : c < pmax
    · rw [if_pos hc] at hb
      have hl' : 0 < l * stepf := mul_pos hl hstep
      rcases List.mem_cons.mp hb with hfst | hb2
      · subst hfst
        exact ⟨hl', rfl, binStep_center stepf hl'.le⟩
      · exact ih (l * stepf) ((binStep stepf smoothf (l * stepf)).center) hl' b hb2
    · rw [if_neg hc] at hb
      cases hb

/-- Every bin produced by the period binner has a positive left edge, a right
edge equal to the left edge times the smoothing factor `2 ^ w`, and the
geometric center. -/
theorem setupPeriodBinning_mem {w s pmin pmax : ℝ} (hp : 0 < pmin) (fuel : ℕ) :
    ∀ b ∈ setupPeriodBinning fuel w s pmin pmax,
      0 < b.left ∧ b.right = b.left * ((2 : ℝ) ^ w)
        ∧ b.center = b.left * Real.sqrt ((2 : ℝ) ^ w) := by
  have hsm : (0 : ℝ) < (2 : ℝ) ^ w := Real.rpow_pos_of_pos (by norm_num) w
  have hst : (0 : ℝ) < (2 : ℝ) ^ s := Real.rpow_pos_of_pos (by norm_num) s
  have hl0 : 0 < pmin / Real.sqrt ((2 : ℝ) ^ w) :=
    div_pos hp (Real.sqrt_pos.mpr hsm)
  intro b hb
  simp only [setupPeriodBinning] at hb
  rcases List.mem_cons.mp hb with hfst | hb2
  · subst hfst
    exact ⟨hl0, rfl, binStep_center _ hl0.le⟩
  · exact @binLoop_mem ((2 : ℝ) ^ s) ((2 : ℝ) ^ w) pmax hst fuel
      (pmin / Real.sqrt ((2 : ℝ) ^ w))
      ((binStep ((2 : ℝ) ^ s) ((2 : ℝ) ^ w) (pmin / Real.sqrt ((2 : ℝ) ^ w))).center)
      hl0 b hb2

/-- The degenerate single-period range produces exactly the first bin. -/
theorem setupPeriodBinning_degenerate (fuel : ℕ) :
    (setupPeriodBinning fuel 1 (1 / 8) 5 5).length = 1 := by
  have h2 : (2 : ℝ) ^ (1 : ℝ) = 2 := Real.rpow_one 2
  have hsq2 : Real.sqrt 2 * Real.sqrt 2 = 2 := Real.mul_self_sqrt (by norm_num)
  have hcenter : Real.sqrt ((5 / Real.sqrt 2) * ((5 / Real.sqrt 2) * 2)) = 5 := by
    have hs2pos : (0 : ℝ) < Real.sqrt 2 := Real.sqrt_pos.mpr (by norm_num)
    have harg : (5 / Real.sqrt 2) * ((5 / Real.sqrt 2) * 2) = 25 := by
      field_simp
      nlinarith [hsq2]
    rw [harg, show (25 : ℝ) = 5 ^ 2 by norm_num, Real.sqrt_sq (by norm_num)]
  have hcent : (binStep ((2 : ℝ) ^ ((1 : ℝ) / 8)) ((2 : ℝ) ^ (1 : ℝ))
      (5 / Real.sqrt ((2 : ℝ) ^ (1 : ℝ)))).center = 5 := by
    rw [h2]
    show Real.sqrt ((5 / Real.sqrt 2) * ((5 / Real.sqrt 2) * 2)) = 5
    exact hcenter
  simp only [setupPeriodBinning, List.length_cons]
  rw [hcent, binLoop_eq_nil fuel (lt_irrefl 5)]
  rfl

/-- C2: for positive step octaves and a positive, ordered period range, every
bin produced by the period binner satisfies `right / left = 2 ^ w` exactly,
at least one bin is produced, and the degenerate call
`build_period_bins(1.0, 0.125, (5.0, 5.0))` produces exactly one bin. -/
theorem C2_period_bin_invariant (fuel : ℕ) (w s pmin pmax : ℝ)
    (_hs : 0 < s) (hp : 0 < pmin) (_hpq : pmin ≤ pmax) :
    (∀ b ∈ setupPeriodBinning fuel w s pmin pmax, b.right / b.left = (2 : ℝ) ^ w)
    ∧ 1 ≤ (setupPeriodBinning fuel w s pmin pmax).length
    ∧ (setupPeriodBinning fuel 1 (1 / 8) 5 5).length = 1 := by
  refine ⟨?_, ?_, setupPeriodBinning_degenerate fuel⟩
  · intro b hb
    obtain ⟨hl, hr, _⟩ := setupPeriodBinning_mem hp fuel b hb
    rw [hr, mul_div_cancel_left₀ _ (ne_of_gt hl)]
  · simp only [setupPeriodBinning, List.length_cons]
    omega

/-- C2 witness: the invariant instantiated at the degenerate concrete call. -/
theorem C2_period_bin_witness :
    (0 : ℝ) < 1 / 8 ∧ (0 : ℝ) < 5 ∧ (5 : ℝ) ≤ 5
    ∧ (∀ b ∈ setupPeriodBinning 0 1 (1 / 8) 5 5, b.right / b.left = (2 : ℝ) ^ (1 : ℝ))
    ∧ 1 ≤ (setupPeriodBinning 0 1 (1 / 8) 5 5).length
    ∧ (setupPeriodBinning 0 1 (1 / 8) 5 5).length = 1 :=
  have h := C2_period_bin_invariant 0 1 (1 / 8) 5 5 (by norm_num) (by norm_num) (le_refl 5)
  ⟨by norm_num, by norm_num, le_refl 5, h.1, h.2.1, h.2.2⟩

/-- C6: the transfer function built by `_remove_response` from its `lti`
coefficient arrays equals the second-order form
`H(s) = s^2 / (s^2 + 2 z wn s + wn^2)` with `wn = 2 pi / natural_period`;
when response removal is enabled the clipped power at every retained
frequency is divided by the squared magnitude of `H` at `j 2 pi f`, and when
disabled the power passes through unchanged. -/
theorem C6_response_removal (z T : ℝ) (l : List (ℝ × ℝ)) (t : ℤ) (fmin fmax : ℝ) :
    (∀ s : ℂ, transferEval z T s = HspecTF z (2 * Real.pi / T) s)
    ∧ removeResponse z T l = l.map (fun fp =>
        (fp.1, fp.2 / Complex.abs (HspecTF z (2 * Real.pi / T)
          (Complex.I * (2 * Real.pi * fp.1))) ^ 2))
    ∧ calculatePsdPost true z T t fmin fmax l
        = instrumentConvert t (removeResponse z T (clipPairs fmin fmax l))
    ∧ calculatePsdPost false z T t fmin fmax l
        = instrumentConvert t (clipPairs fmin fmax l) := by
  have hH : ∀ s : ℂ, transferEval z T s = HspecTF z (2 * Real.pi / T) s := by
    intro s
    show ((((0 : ℂ) * s + ((1 : ℝ) : ℂ)) * s + ((0 : ℝ) : ℂ)) * s + ((0 : ℝ) : ℂ)) /
        ((((0 : ℂ) * s + ((1 : ℝ) : ℂ)) * s + ((2 * z * (2 * Real.pi / T) : ℝ) : ℂ)) * s
          + (((2 * Real.pi / T) ^ 2 : ℝ) : ℂ)) =
        s ^ 2 / (s ^ 2 + ((2 * z * (2 * Real.pi / T) : ℝ) : ℂ) * s
          + (((2 * Real.pi / T) ^ 2 : ℝ) : ℂ))
    congr 1 <;> push_cast <;> ring
  refine ⟨hH, ?_, rfl, rfl⟩
  unfold removeResponse
  exact List.map_congr_left (fun fp _ => by rw [hH])

/-- C5: with response removal disabled, the velocity branch multiplies the
power at every retained frequency `f` by `(2 pi f) ^ 2` before dB
conversion and the acceleration branch leaves it unchanged; in particular a
flat velocity spectrum of value `V` at 1, 2 and 5 Hz becomes
`(2 pi 1)^2 V, (2 pi 2)^2 V, (2 pi 5)^2 V`. -/
theorem C5_instrument_scaling (V fmin fmax z T : ℝ) (l : List (ℝ × ℝ))
    (h1 : fmin ≤ 1) (h5 : 5 ≤ fmax) :
    instrumentConvert 0 l =
      Except.ok (l.map (fun fp => (fp.1, (2 * Real.pi * fp.1) ^ 2 * fp.2)))
    ∧ instrumentConvert 1 l = Except.ok l
    ∧ calculatePsdPost false z T 0 fmin fmax [(1, V), (2, V), (5, V)]
        = Except.ok [(1, (2 * Real.pi * 1) ^ 2 * V), (2, (2 * Real.pi * 2) ^ 2 * V),
            (5, (2 * Real.pi * 5) ^ 2 * V)] := by
  have hclip : clipPairs fmin fmax [((1 : ℝ), V), (2, V), (5, V)] = [(1, V), (2, V), (5, V)] := by
    apply List.filter_eq_self.mpr
    intro a ha
    fin_cases ha <;> simp <;> constructor <;> linarith
  refine ⟨rfl, rfl, ?_⟩
  unfold calculatePsdPost
  simp only [Bool.false_eq_true, if_false]
  rw [hclip]
  rfl

/-- C5 witness: the scaling statement at the concrete inputs `V = 2`,
frequency clip range `[0.001, 100]`, damping 0.707 and natural period 10. -/
theorem C5_instrument_scaling_witness :
    (1 : ℝ) / 1000 ≤ 1 ∧ (5 : ℝ) ≤ 100
    ∧ calculatePsdPost false (707 / 1000) 10 0 (1 / 1000) 100 [(1, 2), (2, 2), (5, 2)]
        = Except.ok [(1, (2 * Real.pi * 1) ^ 2 * 2), (2, (2 * Real.pi * 2) ^ 2 * 2),
            (5, (2 * Real.pi * 5) ^ 2 * 2)] :=
  ⟨by norm_num, by norm_num,
    (C5_instrument_scaling 2 (1 / 1000) 100 (707 / 1000) 10 []
      (by norm_num) (by norm_num)).2.2⟩

/-! ### Ascending-order lemmas (for C7) -/

/-- The head of a nonempty list with a default is a member. -/
theorem headI_mem {α : Type} [Inhabited α] {l : List α} (h : l ≠ []) : l.headI ∈ l := by
  cases l with
  | nil => exact absurd rfl h
  | cons a t => exact List.mem_cons_self a t

/-- The Welch frequency grid is strictly ascending. -/
theorem welchFreqs_pairwise {fs : ℝ} (hfs : 0 < fs) {n : ℕ} (hn : 0 < n) :
    (welchFreqs fs n).Pairwise (· < ·) := by
  unfold welchFreqs
  refine List.Pairwise.map _ (fun a b hab => ?_) (List.pairwise_lt_range _)
  have hnr : (0 : ℝ) < (n : ℝ) := by exact_mod_cast hn
  have habr : (a : ℝ) < (b : ℝ) := by exact_mod_cast hab
  exact (div_lt_div_iff_of_pos_right hnr).mpr (mul_lt_mul_of_pos_right habr hfs)

/-- Retained frequencies are at least the lower clip bound. -/
theorem clipFreqs_mem_lower {α : Type} [LinearOrderedField α] {fmin fmax x : α}
    {l : List α} (h : x ∈ clipFreqs fmin fmax l) : fmin ≤ x := by
  unfold clipFreqs at h
  have := (List.mem_filter.mp h).2
  simp only [Bool.and_eq_true, decide_eq_true_eq] at this
  exact this.1

/-- The centers generated by the loop form a strictly increasing chain above
the current center. -/
theorem binLoop_chain {stepf smoothf pmax : ℝ} (hstep : 1 < stepf) (hsm : 0 < smoothf) :
    ∀ (fuel : ℕ) (left : ℝ), 0 < left →
      List.Chain (· < ·) (left * Real.sqrt smoothf)
        ((binLoop stepf smoothf pmax fuel left (left * Real.sqrt smoothf)).map
          PeriodBin.center) := by
  have hsq : 0 < Real.sqrt smoothf := Real.sqrt_pos.mpr hsm
  intro fuel
  induction fuel with
  | zero =>
    intro l hl
    exact List.Chain.nil
  | succ n ih =>
    intro l hl
    have hl' : 0 < l * stepf := mul_pos hl (lt_trans zero_lt_one hstep)
    simp only [binLoop]
    by_cases hc : l * Real.sqrt smoothf < pmax
    · rw [if_pos hc]
      rw [List.map_cons, binStep_center stepf hl'.le, binStep_left]
      rw [List.chain_cons]
      constructor
      · have : l * Real.sqrt smoothf < l * stepf * Real.sqrt smoothf := by
          have h1 : l * Real.sqrt smoothf < l * stepf * Real.sqrt smoothf ↔
              l * Real.sqrt smoothf * 1 < l * Real.sqrt smoothf * stepf := by
            constructor <;> intro <;> nlinarith
          exact h1.mpr (by nlinarith [mul_pos hl hsq])
        exact this
      · exact ih (l * stepf) hl'
    · rw [if_neg hc]
      exact List.Chain.nil

/-- The centers of the bins produced by the period binner are strictly
increasing. -/
theorem setupPeriodBinning_centers_pairwise {w s pmin pmax : ℝ}
    (hp : 0 < pmin) (hs : 0 < s) (fuel : ℕ) :
    ((setupPeriodBinning fuel w s pmin pmax).map PeriodBin.center).Pairwise (· < ·) := by
  have hsm : (0 : ℝ) < (2 : ℝ) ^ w := Real.rpow_pos_of_pos (by norm_num) w
  have hstep : (1 : ℝ) < (2 : ℝ) ^ s :=
    (Real.one_lt_rpow_iff_of_pos (by norm_num)).mpr (Or.inl ⟨one_lt_two, hs⟩)
  have hl0 : 0 < pmin / Real.sqrt ((2 : ℝ) ^ w) := div_pos hp (Real.sqrt_pos.mpr hsm)
  have hchain := @binLoop_chain ((2 : ℝ) ^ s) ((2 : ℝ) ^ w) pmax hstep hsm fuel
    (pmin / Real.sqrt ((2 : ℝ) ^ w)) hl0
  simp only [setupPeriodBinning, List.map_cons]
  rw [← List.chain_iff_pairwise]
  rw [binStep_center ((2 : ℝ) ^ s) hl0.le, binStep_left]
  exact hchain

/-- Mapping the reciprocal over the reversal of a positive strictly increasing
list yields a strictly increasing list. -/
theorem pairwise_one_div_reverse {l : List ℝ} (hpos : ∀ x ∈ l, 0 < x)
    (hp : l.Pairwise (· < ·)) :
    ((l.reverse).map (fun c => 1 / c)).Pairwise (· < ·) := by
  rw [List.pairwise_map]
  have hrev : l.reverse.Pairwise (fun a b => b < a) := List.pairwise_reverse.mpr hp
  refine List.Pairwise.imp_of_mem (fun ha hb hr => ?_) hrev
  exact one_div_lt_one_div_of_lt (hpos _ (List.mem_reverse.mp hb)) hr

/-- C7: for a successful post-Welch pipeline run on a nonempty clipped
spectrum, the retained full-resolution frequencies are strictly ascending,
the smoothed frequencies are strictly ascending, and the smoothed PSD and
distribution rows are aligned index-by-index with the smoothed frequencies
through the same reversed list of period bins. -/
theorem C7_ascending (fuel : ℕ) (fs : ℝ) (nperseg : ℕ) (fmin fmax : ℝ)
    (psdVals : List ℝ) (hfs : 0 < fs) (hn : 0 < nperseg) (hfmin : 0 < fmin)
    (hne : clipFreqs fmin fmax (welchFreqs fs nperseg) ≠ []) :
    (clipFreqs fmin fmax (welchFreqs fs nperseg)).Pairwise (· < ·)
    ∧ (smoothPsd fuel (clipFreqs fmin fmax (welchFreqs fs nperseg)) psdVals).freqs.Pairwise
        (· < ·)
    ∧ (let cl := clipFreqs fmin fmax (welchFreqs fs nperseg)
       let periods := (cl.map (fun f => 1 / f)).reverse
       let bins := setupPeriodBinning fuel 1 (1 / 8) periods.headI periods.getLastI
       let r := smoothPsd fuel cl psdVals
       r.freqs = (bins.reverse).map (fun b => 1 / b.center)
       ∧ r.psd = (bins.reverse).map
           (fun b => binMean (binValues periods psdVals.reverse b.left b.right))
       ∧ r.dist = (bins.reverse).map
           (fun b => dbHist (binValues periods psdVals.reverse b.left b.right))
       ∧ r.freqs.length = r.psd.length ∧ r.freqs.length = r.dist.length) := by
  have hclip : (clipFreqs fmin fmax (welchFreqs fs nperseg)).Pairwise (· < ·) :=
    List.Pairwise.filter _ (welchFreqs_pairwise hfs hn)
  refine ⟨hclip, ?_, ?_⟩
  · have hpne : ((clipFreqs fmin fmax (welchFreqs fs nperseg)).map
        (fun f => 1 / f)).reverse ≠ [] := by
      intro h
      rw [List.reverse_eq_nil_iff, List.map_eq_nil_iff] at h
      exact hne h
    have hpmem : ∀ x ∈ ((clipFreqs fmin fmax (welchFreqs fs nperseg)).map
        (fun f => 1 / f)).reverse, 0 < x := by
      intro x hx
      rw [List.mem_reverse, List.mem_map] at hx
      obtain ⟨f, hf, rfl⟩ := hx
      exact one_div_pos.mpr (lt_of_lt_of_le hfmin (clipFreqs_mem_lower hf))
    have hppos : 0 < ((clipFreqs fmin fmax (welchFreqs fs nperseg)).map
        (fun f => 1 / f)).reverse.headI := hpmem _ (headI_mem hpne)
    have hcent := @setupPeriodBinning_centers_pairwise 1 (1 / 8)
      (((clipFreqs fmin fmax (welchFreqs fs nperseg)).map (fun f => 1 / f)).reverse.headI)
      (((clipFreqs fmin fmax (welchFreqs fs nperseg)).map
        (fun f => 1 / f)).reverse.getLastI)
      hppos (by norm_num : (0 : ℝ) < 1 / 8) fuel
    have hcpos : ∀ c ∈ (setupPeriodBinning fuel 1 (1 / 8)
        ((clipFreqs fmin fmax (welchFreqs fs nperseg)).map (fun f => 1 / f)).reverse.headI
        ((clipFreqs fmin fmax (welchFreqs fs nperseg)).map
          (fun f => 1 / f)).reverse.getLastI).map PeriodBin.center, 0 < c := by
      intro c hc
      rw [List.mem_map] at hc
      obtain ⟨b, hb, rfl⟩ := hc
      obtain ⟨hbl, _, hbc⟩ := setupPeriodBinning_mem hppos fuel b hb
      rw [hbc]
      exact mul_pos hbl (Real.sqrt_pos.mpr (Real.rpow_pos_of_pos (by norm_num) 1))
    exact pairwise_one_div_reverse hcpos hcent
  · refine ⟨?_, ?_, ?_, ?_, ?_⟩ <;>
      simp [smoothPsd, List.map_reverse, List.map_map, Function.comp_def]

/-- C7 witness: the ascending-order statement at the concrete inputs
`fs = 100`, `nperseg = 2`, clip range `[0.001, 100]`. -/
theorem C7_ascending_witness :
    clipFreqs ((1 : ℝ) / 1000) 100 (welchFreqs 100 2) ≠ []
    ∧ (clipFreqs ((1 : ℝ) / 1000) 100 (welchFreqs 100 2)).Pairwise (· < ·)
    ∧ (smoothPsd 0 (clipFreqs ((1 : ℝ) / 1000) 100 (welchFreqs 100 2)) []).freqs.Pairwise
        (· < ·) := by
  have h50w : (50 : ℝ) ∈ welchFreqs (100 : ℝ) 2 := by
    unfold welchFreqs
    refine List.mem_map.mpr ⟨1, ?_, by norm_num⟩
    simp
  have h50 : (50 : ℝ) ∈ clipFreqs ((1 : ℝ) / 1000) 100 (welchFreqs 100 2) := by
    unfold clipFreqs
    refine List.mem_filter.mpr ⟨h50w, ?_⟩
    simp only [Bool.and_eq_true, decide_eq_true_eq]
    norm_num
  have hne := List.ne_nil_of_mem h50
  have h := C7_ascending 0 100 2 (1 / 1000) 100 [] (by norm_num) (by norm_num)
    (by norm_num) hne
  exact ⟨hne, h.1, h.2.1⟩

end Tool4S
